import Mathlib

/-
Shallow embedding of the DPA fixed-point DSP core in src/main.c.

Machine integers are modelled as Int with explicit two of the
complement reduction: wrap32 for int32_t values and wrap8 for the
int8_t point field.  C truncating division on signed integers is
Int.tdiv.  The circular delay lines are lists of dpa_t values, the
shared write cursor is an explicit Nat threaded through the loops.
-/

namespace DPA

/-- Reduction of an Int into the signed 32-bit range, the effect of
storing an out-of-range value in an int32_t on the target. -/
def wrap32 (x : Int) : Int := (x + 2147483648) % 4294967296 - 2147483648

/-- Reduction of an Int into the signed 8-bit range, the effect of
storing an out-of-range value in an int8_t on the target. -/
def wrap8 (x : Int) : Int := (x + 128) % 256 - 128

/-- The dpa_t struct of src/main.c lines 27-30: a 32-bit mantissa together
with an 8-bit decimal point position. -/
structure dpa_t where
  mantissa : Int
  point : Int
  deriving DecidableEq, Repr

/-- A dpa_t value is valid when both fields are inside the ranges of the
C types int32_t and int8_t. -/
def dpa_valid (v : dpa_t) : Prop :=
  -2147483648 ≤ v.mantissa ∧ v.mantissa ≤ 2147483647 ∧ -128 ≤ v.point ∧ v.point ≤ 127

instance (v : dpa_t) : Decidable (dpa_valid v) := by
  unfold dpa_valid; infer_instance

/-- Denotation of a dpa_t value as the rational number mantissa times
ten to the point, following the data model of the specification. -/
def dpa_val (v : dpa_t) : ℚ := (v.mantissa : ℚ) * (10 : ℚ) ^ v.point

/-- The scale computation loop shared by dpa_add, dpa_from_int and
dpa_to_int: an int32_t starting at 1 is multiplied by 10 a given number
of times, wrapping on overflow. -/
def scaleLoop : Nat → Int
  | 0 => 1
  | n + 1 => wrap32 (scaleLoop n * 10)

/-- The function dpa_add of src/main.c lines 33-51.  Equal points add the
mantissas directly; otherwise the operand with the smaller point has its
mantissa multiplied by ten to the point difference and the result takes
the larger point, unless the difference exceeds 10, in which case the
operand with the larger point is returned unchanged. -/
def dpa_add (a b : dpa_t) : dpa_t :=
  if a.point = b.point then
    ⟨wrap32 (a.mantissa + b.mantissa), a.point⟩
  else if b.point < a.point then
    let shift := a.point - b.point
    if 10 < shift then a
    else ⟨wrap32 (a.mantissa + wrap32 (b.mantissa * scaleLoop shift.toNat)), a.point⟩
  else
    let shift := b.point - a.point
    if 10 < shift then b
    else ⟨wrap32 (wrap32 (a.mantissa * scaleLoop shift.toNat) + b.mantissa), b.point⟩

/-- The function dpa_multiply of src/main.c lines 53-64.  The mantissa
product is taken exactly in 64 bits; if it leaves the signed 32-bit
range it is divided by 1000 with truncation, the quotient cast back to
int32_t, and 3 is added to the point sum. -/
def dpa_multiply (a b : dpa_t) : dpa_t :=
  let result := a.mantissa * b.mantissa
  if 2147483647 < result ∨ result < -2147483648 then
    ⟨wrap32 (result.tdiv 1000), wrap8 (a.point + b.point + 3)⟩
  else
    ⟨wrap32 result, wrap8 (a.point + b.point)⟩

/-- The function dpa_from_int of src/main.c lines 66-70. -/
def dpa_from_int (value : Int) (decimal_places : Int) : dpa_t :=
  let scale := scaleLoop decimal_places.toNat
  ⟨wrap32 (value * scale), wrap8 (-decimal_places)⟩

/-- The function dpa_to_int of src/main.c lines 72-82. -/
def dpa_to_int (num : dpa_t) : Int :=
  if 0 ≤ num.point then
    wrap32 (num.mantissa * scaleLoop num.point.toNat)
  else
    num.mantissa.tdiv (scaleLoop (-num.point).toNat)

/-- Configuration constant BUFFER_SIZE of src/main.c line 89. -/
def BUFFER_SIZE : Nat := 256

/-- Configuration constant FIR_TAPS of src/main.c line 90. -/
def FIR_TAPS : Nat := 32

/-- Configuration constant FFT_SIZE of src/main.c line 91. -/
def FFT_SIZE : Nat := 64

/-- Configuration constant NUM_SENSORS of src/main.c line 92. -/
def NUM_SENSORS : Nat := 4

/-- Configuration constant ADC_CHANNELS of src/main.c line 93. -/
def ADC_CHANNELS : Nat := 3

/-- The FIR coefficient table fir_coeffs of src/main.c lines 102-111. -/
def fir_coeffs : List dpa_t :=
  [⟨-41, -6⟩, ⟨-134, -6⟩, ⟨-207, -6⟩, ⟨-180, -6⟩,
   ⟨-12, -6⟩, ⟨244, -6⟩, ⟨494, -6⟩, ⟨583, -6⟩,
   ⟨394, -6⟩, ⟨-67, -6⟩, ⟨-693, -6⟩, ⟨-1266, -6⟩,
   ⟨-1528, -6⟩, ⟨-1246, -6⟩, ⟨-434, -6⟩, ⟨1116, -6⟩,
   ⟨3395, -6⟩, ⟨6251, -6⟩, ⟨9367, -6⟩, ⟨12358, -6⟩,
   ⟨14808, -6⟩, ⟨16371, -6⟩, ⟨16763, -6⟩, ⟨15808, -6⟩,
   ⟨13459, -6⟩, ⟨9806, -6⟩, ⟨5081, -6⟩, ⟨-331, -6⟩,
   ⟨-5806, -6⟩, ⟨-10646, -6⟩, ⟨-14308, -6⟩, ⟨-16540, -6⟩]

/-- The mutable filter state of src/main.c lines 114-115: the per-channel
delay lines fir_delay and the shared write cursor fir_index. -/
structure FirState where
  delay : List (List dpa_t)
  cursor : Nat
  deriving DecidableEq, Repr

/-- The initial filter state after the memset in main: every delay line
entry is all zero bytes, namely the value with mantissa 0 and point 0,
and the cursor is 0. -/
def firInit : FirState :=
  ⟨List.replicate ADC_CHANNELS (List.replicate FIR_TAPS ⟨0, 0⟩), 0⟩

/-- The function fir_filter of src/main.c lines 169-183.  The input is
stored into the delay line of the given channel at the cursor position,
then the tap products are accumulated with dpa_add starting from
mantissa 0, point 0.  The cursor itself is not modified here. -/
def fir_filter (s : FirState) (channel : Nat) (input : dpa_t) : FirState × dpa_t :=
  let line := (s.delay.getD channel []).set s.cursor input
  let output := (List.range FIR_TAPS).foldl
    (fun acc i =>
      dpa_add acc (dpa_multiply (fir_coeffs.getD i ⟨0, 0⟩)
        (line.getD ((s.cursor + FIR_TAPS - i) % FIR_TAPS) ⟨0, 0⟩)))
    ⟨0, 0⟩
  (⟨s.delay.set channel line, s.cursor⟩, output)

/-- The inner loop of the filtering stage of process_audio_block,
src/main.c lines 265-268: one channel is run through fir_filter sample
by sample, and the shared cursor is advanced modulo FIR_TAPS after each
call.  The third component records, in execution order, one entry
(channel, sample index, cursor value used) per fir_filter call. -/
def firSampleLoop (channel : Nat) (idx : Nat) (xs : List dpa_t) (st : FirState) :
    FirState × List dpa_t × List (Nat × Nat × Nat) :=
  match xs with
  | [] => (st, [], [])
  | x :: rest =>
    let p := fir_filter st channel x
    let r := firSampleLoop channel (idx + 1) rest ⟨p.1.delay, (p.1.cursor + 1) % FIR_TAPS⟩
    (r.1, p.2 :: r.2.1, (channel, idx, st.cursor) :: r.2.2)

/-- The outer loop of the filtering stage of process_audio_block,
src/main.c lines 264-269: the channels are processed one after the
other, each over all of its samples. -/
def firChannelsLoop (channel : Nat) (sig : List (List dpa_t)) (st : FirState) :
    FirState × List (List dpa_t) × List (Nat × Nat × Nat) :=
  match sig with
  | [] => (st, [], [])
  | line :: rest =>
    let r1 := firSampleLoop channel 0 line st
    let r2 := firChannelsLoop (channel + 1) rest r1.1
    (r2.1, r1.2.1 :: r2.2.1, r1.2.2 ++ r2.2.2)

/-- The whole filtering stage of process_audio_block, starting at
channel 0. -/
def firStage (st : FirState) (sig : List (List dpa_t)) :
    FirState × List (List dpa_t) × List (Nat × Nat × Nat) :=
  firChannelsLoop 0 sig st

/-- The fixed sensor delay table delays of src/main.c line 232. -/
def delays : List Nat := [0, 2, 4, 6]

/-- The function delay_and_sum_beamforming of src/main.c lines 227-247.
For each output index, the channels below both NUM_SENSORS and
ADC_CHANNELS whose delayed index is non-negative are accumulated with
dpa_add starting from mantissa 0, point 0, and the resulting mantissa
is divided by NUM_SENSORS with truncating division, point unchanged. -/
def delay_and_sum_beamforming (input : List (List dpa_t)) (samples : Nat) : List dpa_t :=
  (List.range samples).map (fun i =>
    let acc := (List.range (min NUM_SENSORS ADC_CHANNELS)).foldl
      (fun acc ch =>
        if delays.getD ch 0 ≤ i then
          dpa_add acc ((input.getD ch []).getD (i - delays.getD ch 0) ⟨0, 0⟩)
        else acc)
      ⟨0, 0⟩
    ⟨acc.mantissa.tdiv (NUM_SENSORS : Int), acc.point⟩)

/-- Beamformer written from the words of the specification and of the
claim: for each output index, the channels below channelLimit whose
delayed index is non-negative contribute the sample at their delayed
index to a dpa_add sum started from mantissa 0 point 0, and the sum
mantissa is then divided by divisor with truncating division, point
unchanged.  The claim reads the two parameters as one and the same
channel count. -/
def beamform_spec (channelLimit : Nat) (divisor : Int) (ds : List Nat)
    (input : List (List dpa_t)) (samples : Nat) : List dpa_t :=
  (List.range samples).map (fun i =>
    let acc := (((List.range channelLimit).filter (fun ch => decide (ds.getD ch 0 ≤ i))).map
      (fun ch => (input.getD ch []).getD (i - ds.getD ch 0) ⟨0, 0⟩)).foldl dpa_add ⟨0, 0⟩
    ⟨acc.mantissa.tdiv divisor, acc.point⟩)

/-- The cosine table of dpa_dft, src/main.c lines 193-198. -/
def cos_table : List dpa_t :=
  [⟨10000, -4⟩, ⟨9808, -4⟩, ⟨9239, -4⟩, ⟨8315, -4⟩,
   ⟨7071, -4⟩, ⟨5556, -4⟩, ⟨3827, -4⟩, ⟨1951, -4⟩,
   ⟨0, -4⟩, ⟨-1951, -4⟩, ⟨-3827, -4⟩, ⟨-5556, -4⟩,
   ⟨-7071, -4⟩, ⟨-8315, -4⟩, ⟨-9239, -4⟩, ⟨-9808, -4⟩]

/-- The sine table of dpa_dft, src/main.c lines 200-205. -/
def sin_table : List dpa_t :=
  [⟨0, -4⟩, ⟨1951, -4⟩, ⟨3827, -4⟩, ⟨5556, -4⟩,
   ⟨7071, -4⟩, ⟨8315, -4⟩, ⟨9239, -4⟩, ⟨9808, -4⟩,
   ⟨10000, -4⟩, ⟨9808, -4⟩, ⟨9239, -4⟩, ⟨8315, -4⟩,
   ⟨7071, -4⟩, ⟨5556, -4⟩, ⟨3827, -4⟩, ⟨1951, -4⟩]

/-- The function dpa_dft of src/main.c lines 190-221: for every bin
below N / 2, the real and imaginary accumulators start from mantissa 0,
point 0 and are built by table-lookup multiply then dpa_add over the
first N input samples. -/
def dpa_dft (input : List dpa_t) (N : Nat) : List dpa_t × List dpa_t :=
  let bins := (List.range (N / 2)).map (fun k =>
    (List.range N).foldl
      (fun acc n =>
        (dpa_add acc.1
          (dpa_multiply (input.getD n ⟨0, 0⟩) (cos_table.getD ((k * n * 16 / N) % 16) ⟨0, 0⟩)),
         dpa_add acc.2
          (dpa_multiply (input.getD n ⟨0, 0⟩) (sin_table.getD ((k * n * 16 / N) % 16) ⟨0, 0⟩))))
      (⟨0, 0⟩, ⟨0, 0⟩))
  (bins.map Prod.fst, bins.map Prod.snd)

/-- The function process_audio_block of src/main.c lines 253-287:
centering and conversion of the raw block, the filtering stage, the
beamformer, and the transform of the beamformed output when the buffer
is at least one transform long.  The components returned are the
filtered signal, the beamformed output, the real bins, the imaginary
bins, and the final filter state. -/
def process_audio_block (adc : List (List Nat)) (st : FirState) :
    List (List dpa_t) × List dpa_t × List dpa_t × List dpa_t × FirState :=
  let signal := adc.map (fun chan => chan.map (fun raw => dpa_from_int (Int.ofNat raw - 2048) 4))
  let r := firStage st signal
  let output := delay_and_sum_beamforming r.2.1 BUFFER_SIZE
  let ft := if FFT_SIZE ≤ BUFFER_SIZE then dpa_dft output FFT_SIZE else ([], [])
  (r.2.1, output, ft.1, ft.2, r.1)

/-- A zeroish value: mantissa 0 with a point between -4 and 0.  All
delay-line contents and converted samples in the all-zero scenario have
this shape. -/
def zm4 (v : dpa_t) : Prop := v.mantissa = 0 ∧ -4 ≤ v.point ∧ v.point ≤ 0

end DPA

namespace DPA

lemma wrap32_zero : wrap32 0 = 0 := by norm_num [wrap32]

lemma wrap32_small {x : Int} (h1 : -2147483648 ≤ x) (h2 : x ≤ 2147483647) : wrap32 x = x := by
  unfold wrap32; omega

lemma wrap8_small {x : Int} (h1 : -128 ≤ x) (h2 : x ≤ 127) : wrap8 x = x := by
  unfold wrap8; omega

lemma getD_pred {α : Type} {P : α → Prop} {l : List α} {d : α}
    (hl : ∀ v ∈ l, P v) (hd : P d) (n : Nat) : P (l.getD n d) := by
  induction l generalizing n with
  | nil => simpa [List.getD] using hd
  | cons a t ih =>
    cases n with
    | zero => exact hl a (by simp)
    | succ m =>
      simp only [List.getD_cons_succ]
      exact ih (fun v hv => hl v (by simp [hv])) m

lemma getD_set_ne {α : Type} (l : List α) {i j : Nat} (x d : α) (h : i ≠ j) :
    (l.set i x).getD j d = l.getD j d := by
  simp [List.getD_eq_getElem?_getD, List.getElem?_set, h]

lemma getD_set_self {α : Type} (l : List α) {i : Nat} (x d : α) (h : i < l.length) :
    (l.set i x).getD i d = x := by
  simp [List.getD_eq_getElem?_getD, List.getElem?_set, h]

lemma dpa_add_zero_left {b : dpa_t} (hm : b.mantissa = 0) (h1 : -10 ≤ b.point)
    (h2 : b.point ≤ 0) : dpa_add ⟨0, 0⟩ b = ⟨0, 0⟩ := by
  obtain ⟨m, p⟩ := b
  simp only at hm h1 h2
  subst hm
  simp only [dpa_add]
  split_ifs with hc1 hc2 hc3 hc4
  · simp [wrap32_zero]
  · exfalso; simp at hc2 hc3; omega
  · simp [wrap32_zero]
  · exfalso; simp at hc1 hc2; omega
  · exfalso; simp at hc1 hc2; omega

lemma dpa_multiply_mzero_left {a b : dpa_t} (ha : a.mantissa = 0) :
    dpa_multiply a b = ⟨0, wrap8 (a.point + b.point)⟩ := by
  simp [dpa_multiply, ha, wrap32_zero]

lemma dpa_multiply_mzero_right {a b : dpa_t} (hb : b.mantissa = 0) :
    dpa_multiply a b = ⟨0, wrap8 (a.point + b.point)⟩ := by
  simp [dpa_multiply, hb, wrap32_zero]

lemma foldl_fixed {β α : Type} (f : β → α → β) (b : β) (l : List α)
    (h : ∀ x ∈ l, f b x = b) : l.foldl f b = b := by
  induction l with
  | nil => rfl
  | cons a t ih =>
    simp only [List.foldl_cons, h a (by simp)]
    exact ih (fun x hx => h x (by simp [hx]))

lemma fir_coeffs_point : ∀ v ∈ fir_coeffs, v.point = -6 := by decide

lemma cos_table_point : ∀ v ∈ cos_table, v.point = -4 := by decide

lemma sin_table_point : ∀ v ∈ sin_table, v.point = -4 := by decide

lemma scaleLoop_small {n : Nat} (h : n ≤ 9) : scaleLoop n = 10 ^ n := by
  interval_cases n <;> decide

end DPA

namespace DPA

lemma zm4_zero : zm4 ⟨0, 0⟩ := by simp [zm4]

lemma fir_filter_zero (s : FirState) (channel : Nat) (input : dpa_t)
    (hs : ∀ l ∈ s.delay, ∀ v ∈ l, zm4 v) (hin : zm4 input) :
    (fir_filter s channel input).2 = ⟨0, 0⟩ ∧
    ∀ l ∈ (fir_filter s channel input).1.delay, ∀ v ∈ l, zm4 v := by
  have hrow : ∀ v ∈ s.delay.getD channel [], zm4 v :=
    getD_pred (P := fun l => ∀ v ∈ l, zm4 v) hs (by simp) channel
  have hline : ∀ v ∈ (s.delay.getD channel []).set s.cursor input, zm4 v := by
    intro v hv
    rcases List.mem_or_eq_of_mem_set hv with hv2 | hv2
    · exact hrow v hv2
    · rw [hv2]; exact hin
  constructor
  · simp only [fir_filter]
    apply foldl_fixed
    intro i _
    have hcp : -6 ≤ (fir_coeffs.getD i ⟨0, 0⟩).point ∧ (fir_coeffs.getD i ⟨0, 0⟩).point ≤ 0 :=
      getD_pred (P := fun v : dpa_t => -6 ≤ v.point ∧ v.point ≤ 0)
        (fun v hv => by
          show -6 ≤ v.point ∧ v.point ≤ 0
          rw [fir_coeffs_point v hv]; omega) (by simp) i
    have he : zm4 (((s.delay.getD channel []).set s.cursor input).getD
        ((s.cursor + FIR_TAPS - i) % FIR_TAPS) ⟨0, 0⟩) :=
      getD_pred hline zm4_zero _
    rw [dpa_multiply_mzero_right he.1]
    obtain ⟨_, he2, he3⟩ := he
    apply dpa_add_zero_left rfl
    · simp only
      rw [wrap8_small (by omega) (by omega)]
      omega
    · simp only
      rw [wrap8_small (by omega) (by omega)]
      omega
  · intro l hl
    simp only [fir_filter] at hl
    rcases List.mem_or_eq_of_mem_set hl with h | h
    · exact hs l h
    · rw [h]; exact hline

lemma firSampleLoop_zero (channel : Nat) (xs : List dpa_t) :
    ∀ (idx : Nat) (st : FirState), (∀ v ∈ xs, zm4 v) → (∀ l ∈ st.delay, ∀ v ∈ l, zm4 v) →
      (firSampleLoop channel idx xs st).2.1 = List.replicate xs.length ⟨0, 0⟩ ∧
      ∀ l ∈ (firSampleLoop channel idx xs st).1.delay, ∀ v ∈ l, zm4 v := by
  induction xs with
  | nil => intro idx st _ hst; exact ⟨rfl, hst⟩
  | cons x rest ih =>
    intro idx st hxs hst
    obtain ⟨ho, hd⟩ := fir_filter_zero st channel x hst (hxs x (by simp))
    obtain ⟨e1, e2⟩ := ih (idx + 1)
      ⟨(fir_filter st channel x).1.delay, ((fir_filter st channel x).1.cursor + 1) % FIR_TAPS⟩
      (fun v hv => hxs v (by simp [hv])) hd
    simp only [firSampleLoop]
    refine ⟨?_, e2⟩
    simp only [List.length_cons, List.replicate_succ]
    rw [ho, e1]

lemma firChannelsLoop_zero (sig : List (List dpa_t)) :
    ∀ (channel : Nat) (st : FirState), (∀ l ∈ sig, ∀ v ∈ l, zm4 v) →
      (∀ l ∈ st.delay, ∀ v ∈ l, zm4 v) →
      (firChannelsLoop channel sig st).2.1 =
        sig.map (fun l => List.replicate l.length ⟨0, 0⟩) := by
  induction sig with
  | nil => intro _ _ _ _; rfl
  | cons line rest ih =>
    intro channel st hsig hst
    obtain ⟨e1, e2⟩ := firSampleLoop_zero channel line 0 st (hsig line (by simp)) hst
    simp only [firChannelsLoop, List.map_cons]
    rw [e1, ih (channel + 1) _ (fun l hl => hsig l (by simp [hl])) e2]

lemma firSampleLoop_trace_length (channel : Nat) (xs : List dpa_t) :
    ∀ (idx : Nat) (st : FirState), (firSampleLoop channel idx xs st).2.2.length = xs.length := by
  induction xs with
  | nil => intro _ _; rfl
  | cons x rest ih =>
    intro idx st
    simp only [firSampleLoop, List.length_cons]
    rw [ih]

lemma firSampleLoop_cursor (channel : Nat) (xs : List dpa_t) :
    ∀ (idx : Nat) (st : FirState), st.cursor < FIR_TAPS →
      (firSampleLoop channel idx xs st).1.cursor = (st.cursor + xs.length) % FIR_TAPS := by
  induction xs with
  | nil =>
    intro _ st h
    simp only [firSampleLoop, List.length_nil, Nat.add_zero]
    exact (Nat.mod_eq_of_lt h).symm
  | cons x rest ih =>
    intro idx st h
    simp only [firSampleLoop]
    rw [ih (idx + 1)
      ⟨(fir_filter st channel x).1.delay, ((fir_filter st channel x).1.cursor + 1) % FIR_TAPS⟩
      (Nat.mod_lt _ (by norm_num [FIR_TAPS]))]
    simp only [FIR_TAPS, fir_filter, List.length_cons]
    omega

lemma firSampleLoop_trace_entries (channel : Nat) (xs : List dpa_t) :
    ∀ (idx : Nat) (st : FirState), st.cursor < FIR_TAPS →
      ∀ e ∈ (firSampleLoop channel idx xs st).2.2,
        idx ≤ e.2.1 ∧ e.2.2 = (st.cursor + (e.2.1 - idx)) % FIR_TAPS := by
  induction xs with
  | nil => intro _ _ _ e he; simp [firSampleLoop] at he
  | cons x rest ih =>
    intro idx st h e he
    simp only [firSampleLoop] at he
    rcases List.mem_cons.mp he with he | he
    · rw [he]
      refine ⟨le_refl idx, ?_⟩
      simp [Nat.mod_eq_of_lt h]
    · obtain ⟨ha, hb⟩ := ih (idx + 1)
        ⟨(fir_filter st channel x).1.delay, ((fir_filter st channel x).1.cursor + 1) % FIR_TAPS⟩
        (Nat.mod_lt _ (by norm_num [FIR_TAPS])) e he
      refine ⟨by omega, ?_⟩
      rw [hb]
      simp only [FIR_TAPS, fir_filter] at *
      omega

lemma firChannelsLoop_trace_length (sig : List (List dpa_t)) :
    ∀ (channel : Nat) (st : FirState),
      (firChannelsLoop channel sig st).2.2.length = (sig.map List.length).sum := by
  induction sig with
  | nil => intro _ _; rfl
  | cons line rest ih =>
    intro channel st
    simp only [firChannelsLoop, List.map_cons, List.sum_cons, List.length_append]
    rw [firSampleLoop_trace_length, ih]

lemma firChannelsLoop_trace_entries (sig : List (List dpa_t)) :
    ∀ (channel : Nat) (st : FirState), st.cursor < FIR_TAPS →
      (∀ l ∈ sig, l.length % FIR_TAPS = 0) →
      ∀ e ∈ (firChannelsLoop channel sig st).2.2,
        e.2.2 = (st.cursor + e.2.1) % FIR_TAPS := by
  induction sig with
  | nil => intro _ _ _ _ e he; simp [firChannelsLoop] at he
  | cons line rest ih =>
    intro channel st h hlen e he
    simp only [firChannelsLoop] at he
    rcases List.mem_append.mp he with he | he
    · obtain ⟨_, hb⟩ := firSampleLoop_trace_entries channel line 0 st h e he
      simpa using hb
    · have hc : (firSampleLoop channel 0 line st).1.cursor = st.cursor := by
        rw [firSampleLoop_cursor channel line 0 st h]
        have := hlen line (by simp)
        simp only [FIR_TAPS] at *
        omega
      have := ih (channel + 1) (firSampleLoop channel 0 line st).1
        (by rw [hc]; exact h) (fun l hl => hlen l (by simp [hl])) e he
      rwa [hc] at this

lemma sum_map_length_const {α : Type} (sig : List (List α)) (B : Nat)
    (h : ∀ l ∈ sig, l.length = B) : (sig.map List.length).sum = sig.length * B := by
  induction sig with
  | nil => simp
  | cons a t ih =>
    simp only [List.map_cons, List.sum_cons, List.length_cons]
    rw [h a (by simp), ih (fun l hl => h l (by simp [hl]))]
    ring

end DPA

namespace DPA

lemma dpa_add_zero_zero : dpa_add ⟨0, 0⟩ ⟨0, 0⟩ = ⟨0, 0⟩ := by decide

lemma beamform_zero (input : List (List dpa_t)) (samples : Nat)
    (hin : ∀ l ∈ input, ∀ v ∈ l, v = (⟨0, 0⟩ : dpa_t)) :
    delay_and_sum_beamforming input samples = List.replicate samples ⟨0, 0⟩ := by
  apply List.eq_replicate_iff.mpr
  constructor
  · simp [delay_and_sum_beamforming]
  · intro b hb
    simp only [delay_and_sum_beamforming, List.mem_map, List.mem_range] at hb
    obtain ⟨i, hi, hbe⟩ := hb
    rw [← hbe]
    have hfold := foldl_fixed
      (fun acc ch =>
        if delays.getD ch 0 ≤ i then
          dpa_add acc ((input.getD ch []).getD (i - delays.getD ch 0) ⟨0, 0⟩)
        else acc)
      ⟨0, 0⟩ (List.range (min NUM_SENSORS ADC_CHANNELS))
      (by
        intro ch _
        show (if delays.getD ch 0 ≤ i then
            dpa_add ⟨0, 0⟩ ((input.getD ch []).getD (i - delays.getD ch 0) ⟨0, 0⟩)
          else (⟨0, 0⟩ : dpa_t)) = ⟨0, 0⟩
        by_cases hd : delays.getD ch 0 ≤ i
        · rw [if_pos hd]
          have hrow : ∀ v ∈ input.getD ch [], v = (⟨0, 0⟩ : dpa_t) :=
            getD_pred (P := fun l : List dpa_t => ∀ v ∈ l, v = ⟨0, 0⟩) hin (by simp) ch
          have he : (input.getD ch []).getD (i - delays.getD ch 0) ⟨0, 0⟩ = ⟨0, 0⟩ :=
            getD_pred (P := fun v : dpa_t => v = ⟨0, 0⟩) hrow rfl _
          rw [he]
          exact dpa_add_zero_zero
        · rw [if_neg hd])
    rw [hfold]
    simp [Int.zero_tdiv]

lemma dft_step_zero (t : dpa_t) (h1 : -4 ≤ t.point) (h2 : t.point ≤ 0) :
    dpa_add ⟨0, 0⟩ (dpa_multiply ⟨0, 0⟩ t) = ⟨0, 0⟩ := by
  rw [dpa_multiply_mzero_left rfl]
  apply dpa_add_zero_left
  · rfl
  · show -10 ≤ wrap8 ((0 : Int) + t.point)
    rw [zero_add, wrap8_small (by omega) (by omega)]; omega
  · show wrap8 ((0 : Int) + t.point) ≤ 0
    rw [zero_add, wrap8_small (by omega) (by omega)]; omega

lemma dft_zero (input : List dpa_t) (N : Nat) (hin : ∀ v ∈ input, v = (⟨0, 0⟩ : dpa_t)) :
    dpa_dft input N = (List.replicate (N / 2) ⟨0, 0⟩, List.replicate (N / 2) ⟨0, 0⟩) := by
  have h1 : (List.range (N / 2)).map (fun k =>
      (List.range N).foldl
        (fun acc n =>
          (dpa_add acc.1
            (dpa_multiply (input.getD n ⟨0, 0⟩) (cos_table.getD ((k * n * 16 / N) % 16) ⟨0, 0⟩)),
           dpa_add acc.2
            (dpa_multiply (input.getD n ⟨0, 0⟩) (sin_table.getD ((k * n * 16 / N) % 16) ⟨0, 0⟩))))
        (⟨0, 0⟩, ⟨0, 0⟩)) = List.replicate (N / 2) ((⟨0, 0⟩, ⟨0, 0⟩) : dpa_t × dpa_t) := by
    apply List.eq_replicate_iff.mpr
    refine ⟨by simp, ?_⟩
    intro b hb
    simp only [List.mem_map, List.mem_range] at hb
    obtain ⟨k, _, hk⟩ := hb
    rw [← hk]
    apply foldl_fixed
    intro n _
    have hv : input.getD n ⟨0, 0⟩ = ⟨0, 0⟩ :=
      getD_pred (P := fun v : dpa_t => v = ⟨0, 0⟩) hin rfl n
    have hcp : -4 ≤ (cos_table.getD ((k * n * 16 / N) % 16) ⟨0, 0⟩).point ∧
        (cos_table.getD ((k * n * 16 / N) % 16) ⟨0, 0⟩).point ≤ 0 :=
      getD_pred (P := fun v : dpa_t => -4 ≤ v.point ∧ v.point ≤ 0)
        (fun v hv2 => by
          show -4 ≤ v.point ∧ v.point ≤ 0
          rw [cos_table_point v hv2]; omega) (by simp) _
    have hsp : -4 ≤ (sin_table.getD ((k * n * 16 / N) % 16) ⟨0, 0⟩).point ∧
        (sin_table.getD ((k * n * 16 / N) % 16) ⟨0, 0⟩).point ≤ 0 :=
      getD_pred (P := fun v : dpa_t => -4 ≤ v.point ∧ v.point ≤ 0)
        (fun v hv2 => by
          show -4 ≤ v.point ∧ v.point ≤ 0
          rw [sin_table_point v hv2]; omega) (by simp) _
    rw [hv]
    refine Prod.ext ?_ ?_
    · exact dft_step_zero _ hcp.1 hcp.2
    · exact dft_step_zero _ hsp.1 hsp.2
  simp only [dpa_dft]
  rw [h1]
  simp [List.map_replicate]

lemma foldl_if_eq_filter_map {α : Type} (P : α → Prop) [DecidablePred P] (g : α → dpa_t)
    (l : List α) (acc : dpa_t) :
    l.foldl (fun a x => if P x then dpa_add a (g x) else a) acc =
      ((l.filter (fun x => decide (P x))).map g).foldl dpa_add acc := by
  induction l generalizing acc with
  | nil => rfl
  | cons x t ih =>
    by_cases h : P x
    · simp [h, ih]
    · simp [h, ih]

end DPA

namespace DPA

lemma dpa_to_int_mk_nonneg (m p : Int) (h : 0 ≤ p) :
    dpa_to_int ⟨m, p⟩ = wrap32 (m * scaleLoop p.toNat) := by
  simp [dpa_to_int, h]

lemma dpa_to_int_mk_neg (m p : Int) (h : p < 0) :
    dpa_to_int ⟨m, p⟩ = m.tdiv (scaleLoop (-p).toNat) := by
  simp [dpa_to_int, not_le.mpr h]

/-- Claim C1: the claim states that dpa_add on mantissa 100 point -2 and
mantissa 5 point 0, denoting 1.00 and 5, yields mantissa 600 point -2
denoting 6.00.  The code instead multiplies the mantissa of the
smaller-point operand and keeps the larger point, producing mantissa
10005 point 0, which denotes 10005 rather than the sum 6 of the two
denoted quantities.  This theorem evaluates the code at the failing
input of the claim. -/
theorem spec_C1 :
    dpa_add ⟨100, -2⟩ ⟨5, 0⟩ = ⟨10005, 0⟩ ∧
    dpa_add ⟨100, -2⟩ ⟨5, 0⟩ ≠ ⟨600, -2⟩ ∧
    dpa_val (dpa_add ⟨100, -2⟩ ⟨5, 0⟩) ≠ dpa_val ⟨100, -2⟩ + dpa_val ⟨5, 0⟩ := by
  refine ⟨by decide, by decide, ?_⟩
  rw [(by decide : dpa_add ⟨100, -2⟩ ⟨5, 0⟩ = ⟨10005, 0⟩)]
  norm_num [dpa_val]

/-- Claim C2: the claim states that mantissa 0 point 0 is an additive
identity for dpa_add under the denotation mantissa times ten to the
point.  The value mantissa 100 point -2 has point difference 2 from 0
and its alignment product 10000 stays well inside 32 bits, yet adding
the zero value to it yields mantissa 10000 point 0, which denotes 10000
while the operand denotes 1.  This theorem evaluates the code at the
failing input of the claim. -/
theorem spec_C2 :
    dpa_add ⟨0, 0⟩ ⟨100, -2⟩ = ⟨10000, 0⟩ ∧
    dpa_val (dpa_add ⟨0, 0⟩ ⟨100, -2⟩) ≠ dpa_val ⟨100, -2⟩ := by
  refine ⟨by decide, ?_⟩
  rw [(by decide : dpa_add ⟨0, 0⟩ ⟨100, -2⟩ = ⟨10000, 0⟩)]
  norm_num [dpa_val]

/-- Claim C3: when the point difference of the two operands exceeds 10,
dpa_add returns the operand with the larger point unchanged, in both
argument orders. -/
theorem spec_C3 (a b : dpa_t) :
    (10 < a.point - b.point → dpa_add a b = a) ∧
    (10 < b.point - a.point → dpa_add a b = b) := by
  constructor
  · intro h
    simp only [dpa_add]
    split_ifs <;> first | rfl | (exfalso; omega)
  · intro h
    simp only [dpa_add]
    split_ifs <;> first | rfl | (exfalso; omega)

/-- Witness for C3 at concrete operands with point difference 15, in
both argument orders. -/
theorem spec_C3_witness :
    ((10 : Int) < (⟨1, 15⟩ : dpa_t).point - (⟨2, 0⟩ : dpa_t).point ∧
      dpa_add ⟨1, 15⟩ ⟨2, 0⟩ = ⟨1, 15⟩) ∧
    ((10 : Int) < (⟨1, 15⟩ : dpa_t).point - (⟨2, 0⟩ : dpa_t).point ∧
      dpa_add ⟨2, 0⟩ ⟨1, 15⟩ = ⟨1, 15⟩) :=
  ⟨⟨by decide, (spec_C3 ⟨1, 15⟩ ⟨2, 0⟩).1 (by decide)⟩,
   ⟨by decide, (spec_C3 ⟨2, 0⟩ ⟨1, 15⟩).2 (by decide)⟩⟩

/-- Counterexample to C4 as stated: both operands are valid 32-bit
scaled values, the 64-bit mantissa product 2 to the 60 leaves the
signed 32-bit range, yet the result mantissa is not the truncated
quotient of the product by 1000, because the cast of that quotient back
to int32_t wraps. -/
theorem spec_C4_counterexample :
    dpa_valid ⟨2 ^ 30, 0⟩ ∧
    (dpa_multiply ⟨2 ^ 30, 0⟩ ⟨2 ^ 30, 0⟩).mantissa ≠
      ((2 : Int) ^ 30 * 2 ^ 30).tdiv 1000 :=
  ⟨by decide, by decide⟩

/-- Claim C4 as amended: for point sums that fit the int8_t point field,
when the exact 64-bit mantissa product leaves the signed 32-bit range
the result is the truncated quotient of the product by 1000 reduced
into the signed 32-bit range by wrapping, with point sum plus 3, and
otherwise the result mantissa is the exact product with the plain point
sum. -/
theorem spec_C4_amended (a b : dpa_t) (hp1 : -128 ≤ a.point + b.point)
    (hp2 : a.point + b.point + 3 ≤ 127) :
    (2147483647 < a.mantissa * b.mantissa ∨ a.mantissa * b.mantissa < -2147483648 →
      dpa_multiply a b =
        ⟨wrap32 ((a.mantissa * b.mantissa).tdiv 1000), a.point + b.point + 3⟩) ∧
    (-2147483648 ≤ a.mantissa * b.mantissa ∧ a.mantissa * b.mantissa ≤ 2147483647 →
      dpa_multiply a b = ⟨a.mantissa * b.mantissa, a.point + b.point⟩) := by
  constructor
  · intro h
    simp only [dpa_multiply]
    rw [if_pos h, wrap8_small (by omega) (by omega)]
  · intro h
    simp only [dpa_multiply]
    rw [if_neg (by omega), wrap32_small h.1 h.2, wrap8_small (by omega) (by omega)]

/-- Witness for the amended C4: one overflowing product and one product
that fits in 32 bits. -/
theorem spec_C4_amended_witness :
    (-128 ≤ (⟨100000, 1⟩ : dpa_t).point + (⟨100000, 2⟩ : dpa_t).point ∧
     (⟨100000, 1⟩ : dpa_t).point + (⟨100000, 2⟩ : dpa_t).point + 3 ≤ 127 ∧
     (2147483647 : Int) < 100000 * 100000 ∧
     dpa_multiply ⟨100000, 1⟩ ⟨100000, 2⟩ =
       ⟨wrap32 (((100000 : Int) * 100000).tdiv 1000), 1 + 2 + 3⟩) ∧
    dpa_multiply ⟨30000, 1⟩ ⟨30000, 2⟩ = ⟨30000 * 30000, 1 + 2⟩ :=
  ⟨⟨by decide, by decide, by decide,
    (spec_C4_amended ⟨100000, 1⟩ ⟨100000, 2⟩ (by decide) (by decide)).1 (by decide)⟩,
   (spec_C4_amended ⟨30000, 1⟩ ⟨30000, 2⟩ (by decide) (by decide)).2 (by decide)⟩

/-- Claim C5: for every integer v and non-negative decimal place count d
with v times ten to the d inside the signed 32-bit range, converting to
a scaled value and back recovers v exactly. -/
theorem spec_C5 (v : Int) (d : Nat) (h1 : -2147483648 ≤ v * 10 ^ d)
    (h2 : v * 10 ^ d ≤ 2147483647) :
    dpa_to_int (dpa_from_int v (d : Int)) = v := by
  by_cases hv : v = 0
  · subst hv
    have h0 : dpa_from_int 0 (d : Int) = ⟨0, wrap8 (-(d : Int))⟩ := by
      simp [dpa_from_int, wrap32_zero]
    rw [h0]
    rcases le_or_lt 0 (wrap8 (-(d : Int))) with hp | hp
    · rw [dpa_to_int_mk_nonneg _ _ hp]
      simp [wrap32_zero]
    · rw [dpa_to_int_mk_neg _ _ hp]
      exact Int.zero_tdiv _
  · have hvabs : 1 ≤ |v| := Int.one_le_abs hv
    have hpow_pos : (0 : Int) < 10 ^ d := pow_pos (by norm_num) d
    have h10 : (10 : Int) ^ d ≤ 2147483648 := by
      have habs : |v * 10 ^ d| ≤ 2147483648 := abs_le.mpr ⟨by linarith, by linarith⟩
      have hmul : |v * 10 ^ d| = |v| * 10 ^ d := by
        rw [abs_mul, abs_of_pos hpow_pos]
      nlinarith
    have hd : d ≤ 9 := by
      by_contra hcon
      push_neg at hcon
      have h1010 : (10 : Int) ^ 10 ≤ 10 ^ d := pow_le_pow_right₀ (by norm_num) (by omega)
      have hval : (10 : Int) ^ 10 = 10000000000 := by norm_num
      rw [hval] at h1010
      linarith
    have hfrom : dpa_from_int v (d : Int) = ⟨v * 10 ^ d, -(d : Int)⟩ := by
      simp only [dpa_from_int, Int.toNat_natCast, scaleLoop_small hd]
      rw [wrap32_small h1 h2, wrap8_small (by omega) (by omega)]
    rw [hfrom]
    rcases Nat.eq_zero_or_pos d with hd0 | hdpos
    · subst hd0
      rw [dpa_to_int_mk_nonneg _ _ (by norm_num)]
      have hton : ((-((0 : Nat) : Int))).toNat = 0 := by norm_num
      rw [hton]
      have hsl0 : scaleLoop 0 = 1 := rfl
      rw [hsl0]
      rw [mul_one]
      have hv1 : v * 10 ^ (0 : Nat) = v := by norm_num
      rw [hv1] at h1 h2 ⊢
      exact wrap32_small h1 h2
    · rw [dpa_to_int_mk_neg _ _ (by omega)]
      rw [neg_neg, Int.toNat_natCast, scaleLoop_small hd]
      exact Int.mul_tdiv_cancel v (by positivity)

/-- Witness for C5 at v equal 123 and d equal 2. -/
theorem spec_C5_witness :
    (-2147483648 ≤ (123 : Int) * 10 ^ (2 : Nat) ∧
      (123 : Int) * 10 ^ (2 : Nat) ≤ 2147483647) ∧
    dpa_to_int (dpa_from_int 123 ((2 : Nat) : Int)) = 123 :=
  ⟨⟨by decide, by decide⟩, spec_C5 123 2 (by decide) (by decide)⟩

set_option maxRecDepth 100000 in
/-- Claim C6: the claim states that a unit impulse into a cleared filter
reproduces the coefficient table values over the next tapCount calls.
Already the first call refutes it: with delay lines all zero, cursor 0,
and input mantissa 1 point 0 denoting 1, the output is mantissa
-41000000 point 0, because the accumulating dpa_add scales the tap
product mantissa -41 point -6 by ten to the 6 instead of the
accumulator; the output denotes -41000000, not the first coefficient
value -41 times ten to the -6.  This theorem evaluates the code at the
failing input of the claim. -/
theorem spec_C6 :
    (fir_filter firInit 0 ⟨1, 0⟩).2 = ⟨-41000000, 0⟩ ∧
    dpa_val ⟨-41000000, 0⟩ ≠ dpa_val (fir_coeffs.getD 0 ⟨0, 0⟩) := by
  constructor
  · decide
  · norm_num [dpa_val, fir_coeffs]

end DPA

namespace DPA

lemma getD_set_self_oob {α : Type} (l : List α) {i : Nat} (x d : α) (h : ¬ i < l.length) :
    (l.set i x).getD i d = l.getD i d := by
  have h2 : l[i]? = none := List.getElem?_eq_none (by omega)
  simp [List.getD_eq_getElem?_getD, List.getElem?_set, h, h2]

/-- Counterexample to C7 as stated: over one block of 3 channels of 256
samples the shared cursor is advanced once per fir_filter call, that is
768 times, not blockSize = 256 times. -/
theorem spec_C7_counterexample :
    (firStage firInit
      (List.replicate ADC_CHANNELS (List.replicate BUFFER_SIZE ⟨0, -4⟩))).2.2.length = 768 ∧
    (768 : Nat) ≠ BUFFER_SIZE := by
  constructor
  · show (firChannelsLoop 0 _ firInit).2.2.length = 768
    rw [firChannelsLoop_trace_length]
    rw [sum_map_length_const _ BUFFER_SIZE
      (fun l hl => by rw [List.eq_of_mem_replicate hl]; simp)]
    rw [List.length_replicate]
    decide
  · decide

/-- Claim C7 as amended: during one block the cursor is advanced once
after every single fir_filter call, channelCount times blockSize times
in total, with the channels processed one after the other; because the
block size 256 is a multiple of the tap count 32, every channel is
nevertheless filtered with the same cursor value, namely the initial
cursor plus the sample index modulo the tap count, at the same sample
index. -/
theorem spec_C7_amended (st : FirState) (sig : List (List dpa_t))
    (h1 : st.cursor < FIR_TAPS) (h2 : ∀ l ∈ sig, l.length = BUFFER_SIZE) :
    (firStage st sig).2.2.length = sig.length * BUFFER_SIZE ∧
    ∀ e ∈ (firStage st sig).2.2, e.2.2 = (st.cursor + e.2.1) % FIR_TAPS := by
  constructor
  · show (firChannelsLoop 0 sig st).2.2.length = _
    rw [firChannelsLoop_trace_length]
    exact sum_map_length_const sig BUFFER_SIZE h2
  · intro e he
    exact firChannelsLoop_trace_entries sig 0 st h1
      (fun l hl => by rw [h2 l hl]; decide) e he

/-- Witness for the amended C7 on the all-zero block of 3 channels of
256 samples with the initial filter state. -/
theorem spec_C7_amended_witness :
    (firInit.cursor < FIR_TAPS ∧
     ∀ l ∈ List.replicate ADC_CHANNELS (List.replicate BUFFER_SIZE (⟨0, -4⟩ : dpa_t)),
       l.length = BUFFER_SIZE) ∧
    (firStage firInit
        (List.replicate ADC_CHANNELS (List.replicate BUFFER_SIZE ⟨0, -4⟩))).2.2.length =
      (List.replicate ADC_CHANNELS
        (List.replicate BUFFER_SIZE (⟨0, -4⟩ : dpa_t))).length * BUFFER_SIZE ∧
    ∀ e ∈ (firStage firInit
        (List.replicate ADC_CHANNELS (List.replicate BUFFER_SIZE ⟨0, -4⟩))).2.2,
      e.2.2 = (firInit.cursor + e.2.1) % FIR_TAPS :=
  ⟨⟨by decide, fun l hl => by rw [List.eq_of_mem_replicate hl]; simp⟩,
   spec_C7_amended firInit _ (by decide)
     (fun l hl => by rw [List.eq_of_mem_replicate hl]; simp)⟩

/-- Counterexample to C8 as stated: reading the claim with channel
count 3, the number of channel streams actually summed, the division by
NUM_SENSORS = 4 in the code differs from division by 3 already on a one
sample block; reading the claim with channel count 4, the table length,
the code never reads channel 3 even at indices where its delayed index
is non-negative, so the sums differ at output index 6. -/
theorem spec_C8_counterexample :
    delay_and_sum_beamforming [[⟨3, 0⟩], [⟨0, 0⟩], [⟨0, 0⟩]] 1 ≠
      beamform_spec ADC_CHANNELS (ADC_CHANNELS : Int) delays [[⟨3, 0⟩], [⟨0, 0⟩], [⟨0, 0⟩]] 1 ∧
    delay_and_sum_beamforming
        [List.replicate 7 ⟨0, 0⟩, List.replicate 7 ⟨0, 0⟩, List.replicate 7 ⟨0, 0⟩, [⟨4, 0⟩]] 7 ≠
      beamform_spec NUM_SENSORS (NUM_SENSORS : Int) delays
        [List.replicate 7 ⟨0, 0⟩, List.replicate 7 ⟨0, 0⟩, List.replicate 7 ⟨0, 0⟩, [⟨4, 0⟩]] 7 :=
  ⟨by decide, by decide⟩

/-- Claim C8 as amended: the beamformer output is the specification
shaped sum restricted to the first min(NUM_SENSORS, ADC_CHANNELS) = 3
channels, while the mantissa is divided by NUM_SENSORS = 4; the two
channel counts of the claim are distinct constants in the code. -/
theorem spec_C8_amended (input : List (List dpa_t)) (samples : Nat) :
    delay_and_sum_beamforming input samples =
      beamform_spec (min NUM_SENSORS ADC_CHANNELS) (NUM_SENSORS : Int) delays input samples := by
  simp only [delay_and_sum_beamforming, beamform_spec]
  apply List.map_congr_left
  intro i _
  rw [foldl_if_eq_filter_map (P := fun ch => delays.getD ch 0 ≤ i)]

end DPA

namespace DPA

/-- Claim C9: on a block of 256 raw samples all equal to 2048 on every
channel, with the delay lines initially cleared, every filtered sample
is the zero value mantissa 0 point 0, the beamformed output is all
zero values, both transform bin lists are all zero values, and the
zero value denotes 0 and converts to the integer 0. -/
theorem spec_C9 :
    (process_audio_block (List.replicate ADC_CHANNELS (List.replicate BUFFER_SIZE 2048))
        firInit).1 = List.replicate ADC_CHANNELS (List.replicate BUFFER_SIZE ⟨0, 0⟩) ∧
    (process_audio_block (List.replicate ADC_CHANNELS (List.replicate BUFFER_SIZE 2048))
        firInit).2.1 = List.replicate BUFFER_SIZE ⟨0, 0⟩ ∧
    (process_audio_block (List.replicate ADC_CHANNELS (List.replicate BUFFER_SIZE 2048))
        firInit).2.2.1 = List.replicate (FFT_SIZE / 2) ⟨0, 0⟩ ∧
    (process_audio_block (List.replicate ADC_CHANNELS (List.replicate BUFFER_SIZE 2048))
        firInit).2.2.2.1 = List.replicate (FFT_SIZE / 2) ⟨0, 0⟩ ∧
    dpa_val ⟨0, 0⟩ = 0 ∧ dpa_to_int ⟨0, 0⟩ = 0 := by
  have hzero : dpa_from_int (Int.ofNat 2048 - 2048) 4 = ⟨0, -4⟩ := by decide
  have hconv : (List.replicate ADC_CHANNELS (List.replicate BUFFER_SIZE (2048 : Nat))).map
      (fun chan => chan.map (fun raw => dpa_from_int (Int.ofNat raw - 2048) 4)) =
      List.replicate ADC_CHANNELS (List.replicate BUFFER_SIZE ⟨0, -4⟩) := by
    rw [List.map_replicate, List.map_replicate, hzero]
  have hfilt : (firStage firInit
      (List.replicate ADC_CHANNELS (List.replicate BUFFER_SIZE ⟨0, -4⟩))).2.1 =
      List.replicate ADC_CHANNELS (List.replicate BUFFER_SIZE ⟨0, 0⟩) := by
    show (firChannelsLoop 0 _ firInit).2.1 = _
    rw [firChannelsLoop_zero _ 0 firInit
      (by
        intro l hl v hv
        rw [List.eq_of_mem_replicate hl] at hv
        rw [List.eq_of_mem_replicate hv]
        simp [zm4])
      (by
        intro l hl v hv
        simp only [firInit] at hl
        rw [List.eq_of_mem_replicate hl] at hv
        rw [List.eq_of_mem_replicate hv]
        simp [zm4])]
    simp [List.map_replicate]
  have hbeam : delay_and_sum_beamforming
      (List.replicate ADC_CHANNELS (List.replicate BUFFER_SIZE ⟨0, 0⟩)) BUFFER_SIZE =
      List.replicate BUFFER_SIZE ⟨0, 0⟩ :=
    beamform_zero _ _ (by
      intro l hl v hv
      rw [List.eq_of_mem_replicate hl] at hv
      exact List.eq_of_mem_replicate hv)
  have hdft : dpa_dft (List.replicate BUFFER_SIZE ⟨0, 0⟩) FFT_SIZE =
      (List.replicate (FFT_SIZE / 2) ⟨0, 0⟩, List.replicate (FFT_SIZE / 2) ⟨0, 0⟩) :=
    dft_zero _ _ (fun v hv => List.eq_of_mem_replicate hv)
  refine ⟨?_, ?_, ?_, ?_, by norm_num [dpa_val], by decide⟩ <;>
    simp only [process_audio_block, hconv, hfilt, hbeam,
      if_pos (show FFT_SIZE ≤ BUFFER_SIZE by decide), hdft]

/-- Claim C10: frame property of fir_filter: the call leaves the shared
cursor unchanged, leaves the delay line of every other channel
unchanged, leaves every entry of the written channel other than the one
at the cursor unchanged, and, when channel and cursor are in range,
stores exactly the input at the cursor position of that channel. -/
theorem spec_C10 (s : FirState) (channel : Nat) (input : dpa_t) :
    (fir_filter s channel input).1.cursor = s.cursor ∧
    (∀ ch2, ch2 ≠ channel →
      (fir_filter s channel input).1.delay.getD ch2 [] = s.delay.getD ch2 []) ∧
    (∀ j, j ≠ s.cursor →
      ((fir_filter s channel input).1.delay.getD channel []).getD j ⟨0, 0⟩ =
        (s.delay.getD channel []).getD j ⟨0, 0⟩) ∧
    (channel < s.delay.length → s.cursor < (s.delay.getD channel []).length →
      ((fir_filter s channel input).1.delay.getD channel []).getD s.cursor ⟨0, 0⟩ = input) := by
  refine ⟨rfl, ?_, ?_, ?_⟩
  · intro ch2 h
    show (s.delay.set channel ((s.delay.getD channel []).set s.cursor input)).getD ch2 [] = _
    exact getD_set_ne _ _ _ (Ne.symm h)
  · intro j h
    show ((s.delay.set channel
      ((s.delay.getD channel []).set s.cursor input)).getD channel []).getD j ⟨0, 0⟩ = _
    by_cases hch : channel < s.delay.length
    · rw [getD_set_self _ _ _ hch]
      exact getD_set_ne _ _ _ (Ne.symm h)
    · rw [getD_set_self_oob _ _ _ hch]
  · intro h1 h2
    show ((s.delay.set channel
      ((s.delay.getD channel []).set s.cursor input)).getD channel []).getD s.cursor ⟨0, 0⟩ = _
    rw [getD_set_self _ _ _ h1, getD_set_self _ _ _ h2]

/-- Witness for C10 on a concrete two channel state with two entries in
the first delay line, writing into channel 0 at cursor 0. -/
theorem spec_C10_witness :
    (fir_filter ⟨[[⟨7, 0⟩, ⟨8, 0⟩], [⟨5, 0⟩]], 0⟩ 0 ⟨9, 9⟩).1.cursor =
      (⟨[[⟨7, 0⟩, ⟨8, 0⟩], [⟨5, 0⟩]], 0⟩ : FirState).cursor ∧
    (fir_filter ⟨[[⟨7, 0⟩, ⟨8, 0⟩], [⟨5, 0⟩]], 0⟩ 0 ⟨9, 9⟩).1.delay.getD 1 [] =
      (⟨[[⟨7, 0⟩, ⟨8, 0⟩], [⟨5, 0⟩]], 0⟩ : FirState).delay.getD 1 [] ∧
    ((fir_filter ⟨[[⟨7, 0⟩, ⟨8, 0⟩], [⟨5, 0⟩]], 0⟩ 0 ⟨9, 9⟩).1.delay.getD 0 []).getD 1 ⟨0, 0⟩ =
      ((⟨[[⟨7, 0⟩, ⟨8, 0⟩], [⟨5, 0⟩]], 0⟩ : FirState).delay.getD 0 []).getD 1 ⟨0, 0⟩ ∧
    ((fir_filter ⟨[[⟨7, 0⟩, ⟨8, 0⟩], [⟨5, 0⟩]], 0⟩ 0 ⟨9, 9⟩).1.delay.getD 0 []).getD 0 ⟨0, 0⟩ =
      ⟨9, 9⟩ :=
  ⟨(spec_C10 _ 0 _).1,
   (spec_C10 _ 0 _).2.1 1 (by decide),
   (spec_C10 _ 0 _).2.2.1 1 (by decide),
   (spec_C10 _ 0 _).2.2.2 (by decide) (by decide)⟩

end DPA
